import Mathlib

/-!
Verification development for the Media_Manager repository.

The two source modules under study are photo_scan.py (media discovery:
classification tables, directory crawl, catalog merge and persistence,
orchestration) and recognition.py (face-match pipeline: target encoding
construction and the candidate scan with collision-safe copying).

Python strings are embedded as lists of characters (`Str`), so that the
case folding, suffix and substring tests of the source translate to
`List.map Char.toLower`, `List.isSuffixOf` and `List.IsInfix`.  Machine
floats of the source only ever flow through comparisons and percentages,
so they are embedded as rationals.  The filesystem and the external
face_recognition library are explicit parameters: a directory tree is an
inductive value, file contents are a partial map, and the embedding
capability is a function argument, as the spec directs for external
collaborators.
-/

/-- Python strings, embedded as lists of characters. -/
abbrev Str := List Char

/-- Literal string helper: the character list of a Lean string literal. -/
def chars (s : String) : Str := s.toList

/-- Python str.lower, character by character. -/
def lowerStr (s : Str) : Str := s.map Char.toLower

/-- Python s.endswith(tup): some element of the tuple is a suffix of s. -/
def endsWithAny (s : Str) (sufs : List Str) : Bool :=
  sufs.any (fun e => e.isSuffixOf s)

/-- Python membership test `needle in hay` on strings. -/
def containsSub (needle hay : Str) : Bool := decide (needle <:+: hay)

/-- Translation of `image_extensions` from photo_scan.py. -/
def image_extensions : List Str :=
  [chars ".jpg", chars ".jpeg", chars ".png", chars ".heic", chars ".bmp",
   chars ".gif", chars ".tif", chars ".tiff", chars ".heif", chars ".raw",
   chars ".arw", chars ".cr2", chars ".nef", chars ".orf", chars ".sr2",
   chars ".dng", chars ".psd", chars ".jp2"]

/-- Translation of `video_extensions` from photo_scan.py. -/
def video_extensions : List Str :=
  [chars ".mp4", chars ".mov", chars ".avi", chars ".mkv", chars ".wmv",
   chars ".flv", chars ".webm", chars ".3gp", chars ".mpeg", chars ".mpg",
   chars ".m4v", chars ".mts", chars ".m2ts", chars ".ts", chars ".ogv",
   chars ".divx"]

/-- Translation of `skip_folders` from photo_scan.py. -/
def skip_folders : List Str :=
  [chars "TECHTOOLS", chars ".Applications", chars ".Trash", chars "com.apple",
   chars ".spotlight-V100", chars ".fseventsd", chars ".documentRevisions-V100",
   chars "$Recyle.Bin", chars "Program Files", chars "Program Files (x86)",
   chars "AppData", chars "Temp", chars "ProgramData", chars "_MACOSX",
   chars ".cache", chars ".config", chars ".local", chars "Library",
   chars "node_modules", chars "venv", chars ".venv", chars ".git",
   chars ".svn", chars ".hg", chars ".OneDriveTemp", chars "OneDrive - Personal",
   chars "Recycle.Bin", chars ".thumbnails", chars "lost+found",
   chars "$WinREAgent"]

/-- Translation of `junk_extensions_lower` from photo_scan.py.  The source
builds `list(set([...]))` and lowercases; all entries are already lowercase
and `endswith` against the tuple is order- and duplicate-insensitive, so the
written order is kept. -/
def junk_extensions_lower : List Str :=
  [chars ".ds_store", chars ".tmp", chars ".log", chars ".ini", chars ".plist",
   chars ".db", chars ".thumbnails", chars ".lnk", chars ".exe", chars ".dll",
   chars ".sys", chars ".bak", chars ".swp", chars ".crdownload", chars ".part",
   chars ".icloud", chars ".trashinfo", chars ".desktop.ini", chars ".thumbs.db",
   chars ".msi", chars ".cab", chars ".gx", chars ".xz", chars ".tar",
   chars ".zip", chars ".nfo", chars ".sfv", chars ".apk", chars ".obb",
   chars ".ipa", chars ".torrent", chars ".aria2", chars ".idx", chars ".sub",
   chars ".srt", chars ".lock", chars ".old", chars ".db-journal",
   chars ".log1", chars ".log2"]

/-- Translation of `should_skip_dir` from photo_scan.py: some skip folder
name occurs, case-insensitively, anywhere in the directory path. -/
def should_skip_dir (dir_path : Str) : Bool :=
  skip_folders.any (fun skip => containsSub (lowerStr skip) (lowerStr dir_path))

/-- Translation of `is_junk_file` from photo_scan.py. -/
def is_junk_file (file_name : Str) : Bool :=
  endsWithAny (lowerStr file_name) junk_extensions_lower

/-- File classes distinguished by the classification logic of the scan loop
in photo_scan.py (the PathClassifier of the spec). -/
inductive FileClass where
  | Image
  | Video
  | Junk
  | Unclassified
deriving DecidableEq, Repr

/-- Classification of one file name, exactly as the per-file branch of
`scan_media` orders its tests: junk first, then image suffixes, then video
suffixes, else unclassified. -/
def classify_file (file_name : Str) : FileClass :=
  if is_junk_file file_name then FileClass.Junk
  else if endsWithAny (lowerStr file_name) image_extensions then FileClass.Image
  else if endsWithAny (lowerStr file_name) video_extensions then FileClass.Video
  else FileClass.Unclassified

/-- Translation of `merge_media_lists` from photo_scan.py:
`sorted(set(old_list) | set(new_list))`, i.e. duplicate elimination followed
by the deterministic lexicographic sort of Python `sorted` on strings. -/
def merge_media_lists (old_list new_list : List Str) : List Str :=
  List.insertionSort (· ≤ ·) ((old_list ++ new_list).dedup)

/-- Candidate suffix whitelist of `scan_and_copy_matches` in recognition.py,
transcribed literally: the fifth entry is the six-character string
".webp:" (with a trailing colon) exactly as in the source. -/
def candidate_suffixes : List Str :=
  [chars ".jpg", chars ".jpeg", chars ".png", chars ".bmp",
   chars ".webp:", chars ".tiff"]

/-- Candidate test of the enumeration loop in `scan_and_copy_matches`:
`f.lower().endswith((".jpg", ".jpeg", ".png", ".bmp", ".webp:", ".tiff"))`. -/
def is_candidate (f : Str) : Bool :=
  endsWithAny (lowerStr f) candidate_suffixes

-- Basic sanity checks of the embedding on concrete names.
example : classify_file (chars "photo.JPG") = FileClass.Image := by decide
example : classify_file (chars "clip.mp4") = FileClass.Video := by decide
example : classify_file (chars "thumbs.db") = FileClass.Junk := by decide
example : classify_file (chars "backup.jpg.tmp") = FileClass.Junk := by decide
example : classify_file (chars "readme.txt") = FileClass.Unclassified := by decide
example : is_candidate (chars "a.webp") = false := by decide
example : is_candidate (chars "a.webp:") = true := by decide
example : should_skip_dir (chars "/home/u/node_modules/x") = true := by decide
example : should_skip_dir (chars "/home/u/pics") = false := by decide
example : merge_media_lists [chars "b", chars "a"] [chars "a", chars "c"]
    = [chars "a", chars "b", chars "c"] := by decide

/- Directory tree: the files directly in a directory plus the named
subdirectories.  `DirEntries` is the (name, subtree) list, kept as its own
inductive so that mutual structural recursion over the tree is direct. -/
mutual
inductive Dir where
  | node (files : List Str) (subs : DirEntries)
inductive DirEntries where
  | nil
  | cons (name : Str) (d : Dir) (rest : DirEntries)
end

/-- Translation of `os.path.join(root, file)` with the POSIX separator. -/
def pathJoin (p name : Str) : Str := p ++ ('/' :: name)

/- Enumeration pass of `scan_media` over `os.walk(root_path)`: top-down
walk collecting (root, file) pairs into `all_files`, with the skip test
applied to every yielded directory; a skipped directory contributes no
files and, through `dirs[:] = []`, none of its descendants. -/
mutual
def walkFiles : Str → Dir → List (Str × Str)
  | p, Dir.node files subs =>
    if should_skip_dir p then []
    else files.map (fun f => (p, f)) ++ walkFilesEntries p subs
def walkFilesEntries : Str → DirEntries → List (Str × Str)
  | _, DirEntries.nil => []
  | p, DirEntries.cons name d rest =>
    walkFiles (pathJoin p name) d ++ walkFilesEntries p rest
end

/- Full enumeration of the tree with no skip pruning: every (root, file)
pair of the subtree.  Used to speak about files located under a directory,
whether or not the crawl visits them. -/
mutual
def allFilesUnder : Str → Dir → List (Str × Str)
  | p, Dir.node files subs =>
    files.map (fun f => (p, f)) ++ allFilesUnderEntries p subs
def allFilesUnderEntries : Str → DirEntries → List (Str × Str)
  | _, DirEntries.nil => []
  | p, DirEntries.cons name d rest =>
    allFilesUnder (pathJoin p name) d ++ allFilesUnderEntries p rest
end

/- Every directory of the tree together with its path, the root included. -/
mutual
def subtreesOf : Str → Dir → List (Str × Dir)
  | p, Dir.node files subs => (p, Dir.node files subs) :: subtreesOfEntries p subs
def subtreesOfEntries : Str → DirEntries → List (Str × Dir)
  | _, DirEntries.nil => []
  | p, DirEntries.cons name d rest =>
    subtreesOf (pathJoin p name) d ++ subtreesOfEntries p rest
end

/- Well-formedness of a tree as a filesystem image: no file name contains
the path separator.  Real directory listings satisfy this by construction. -/
mutual
def filesNoSlash : Dir → Bool
  | Dir.node files subs =>
    files.all (fun f => decide ('/' ∉ f)) && filesNoSlashEntries subs
def filesNoSlashEntries : DirEntries → Bool
  | DirEntries.nil => true
  | DirEntries.cons _ d rest => filesNoSlash d && filesNoSlashEntries rest
end

/-- Result of one `scan_media` call: the two output sequences, the values
passed to the progress callback in order, and the log lines (interpolated
values elided from the message text). -/
structure ScanResult where
  found_images : List Str
  found_videos : List Str
  progress : List ℚ
  logs : List String
deriving Repr

/-- Classification pass of `scan_media`: walk `all_files` with the running
`processed` counter.  A junk file advances the counter and is then skipped
by `continue`, before the periodic log and before the progress callback;
every other file is classified (image suffixes first, else video suffixes),
logged every thousandth file, and reported as `processed / total * 100`. -/
def processFiles (total : ℕ) : ℕ → List (Str × Str) → ScanResult
  | _, [] => ⟨[], [], [], []⟩
  | processed, (root, file) :: rest =>
    let processed' := processed + 1
    let r := processFiles total processed' rest
    if is_junk_file file then r
    else
      let full_path := pathJoin root file
      let lower_file := lowerStr file
      let logs := if processed' % 1000 == 0
        then "[SCAN] Processed files..." :: r.logs else r.logs
      let percent : ℚ := ((processed' : ℚ) / (total : ℚ)) * 100
      if endsWithAny lower_file image_extensions then
        ⟨full_path :: r.found_images, r.found_videos, percent :: r.progress, logs⟩
      else if endsWithAny lower_file video_extensions then
        ⟨r.found_images, full_path :: r.found_videos, percent :: r.progress, logs⟩
      else
        ⟨r.found_images, r.found_videos, percent :: r.progress, logs⟩

/-- Translation of `scan_media` from photo_scan.py: enumerate first so that
`total` is known, then classify with progress reporting. -/
def scan_media (root_path : Str) (d : Dir) : ScanResult :=
  let all_files := walkFiles root_path d
  processFiles all_files.length 0 all_files

/-- Monotonicity of the percentage formula in the processed counter; the
zero-total case is harmless because rational division by zero is zero. -/
theorem percent_le_percent {total k₁ k₂ : ℕ} (h : k₁ ≤ k₂) :
    ((k₁ : ℚ) / total) * 100 ≤ ((k₂ : ℚ) / total) * 100 := by
  rcases Nat.eq_zero_or_pos total with h0 | hpos
  · subst h0; simp
  · have hq : (0 : ℚ) < total := by exact_mod_cast hpos
    have hk : (k₁ : ℚ) ≤ (k₂ : ℚ) := by exact_mod_cast h
    gcongr

/-- Every emitted progress value is the percentage of some counter value
strictly between the starting counter and the starting counter plus the
number of remaining files. -/
theorem processFiles_progress_mem (total : ℕ) (l : List (Str × Str)) :
    ∀ (n : ℕ) (x : ℚ), x ∈ (processFiles total n l).progress →
      ∃ k, n < k ∧ k ≤ n + l.length ∧ x = ((k : ℚ) / total) * 100 := by
  induction l with
  | nil => intro n x hx; simp [processFiles] at hx
  | cons hd tl ih =>
    intro n x hx
    obtain ⟨root, file⟩ := hd
    simp only [processFiles] at hx
    split_ifs at hx with hj hi hv
    · obtain ⟨k, hk1, hk2, hk3⟩ := ih (n + 1) x hx
      exact ⟨k, by omega, by simp; omega, hk3⟩
    all_goals {
      simp only [List.mem_cons] at hx
      rcases hx with hx | hx
      · exact ⟨n + 1, by omega, by simp, hx⟩
      · obtain ⟨k, hk1, hk2, hk3⟩ := ih (n + 1) x hx
        exact ⟨k, by omega, by simp; omega, hk3⟩ }

/-- The progress sequence of the classification pass is monotonically
non-decreasing: each emission uses a strictly larger processed counter. -/
theorem processFiles_progress_chain (total : ℕ) (l : List (Str × Str)) :
    ∀ n : ℕ, List.Chain' (· ≤ ·) (processFiles total n l).progress := by
  induction l with
  | nil => intro n; simp [processFiles]
  | cons hd tl ih =>
    intro n
    obtain ⟨root, file⟩ := hd
    simp only [processFiles]
    split_ifs with hj hi hv
    · exact ih (n + 1)
    all_goals {
      refine List.chain'_cons'.mpr ⟨?_, ih (n + 1)⟩
      intro y hy
      have hy' : y ∈ (processFiles total (n + 1) tl).progress :=
        List.mem_of_mem_head? hy
      obtain ⟨k, hk1, _, hk3⟩ := processFiles_progress_mem total tl (n + 1) y hy'
      rw [hk3]
      exact percent_le_percent (by omega) }

/-- Emitted progress values lie in the interval from 0 to 100 as soon as the
counter never passes the announced total. -/
theorem processFiles_progress_bounds (total : ℕ) (l : List (Str × Str))
    (n : ℕ) (hn : n + l.length ≤ total) :
    ∀ x ∈ (processFiles total n l).progress, 0 ≤ x ∧ x ≤ 100 := by
  intro x hx
  obtain ⟨k, hk1, hk2, hk3⟩ := processFiles_progress_mem total l n x hx
  subst hk3
  constructor
  · positivity
  · have : ((k : ℚ) / total) * 100 ≤ ((total : ℚ) / total) * 100 :=
      percent_le_percent (by omega)
    rcases Nat.eq_zero_or_pos total with h0 | hpos
    · subst h0; simp
    · have hq : (total : ℚ) ≠ 0 := by exact_mod_cast Nat.pos_iff_ne_zero.mp hpos
      rw [div_self hq, one_mul] at this
      exact this

/-- Counter values at which the classification pass emits progress: every
file advances the counter, junk files emit nothing. -/
def progressIdxs : List (Str × Str) → ℕ → List ℕ
  | [], _ => []
  | (_, file) :: rest, n =>
    if is_junk_file file then progressIdxs rest (n + 1)
    else (n + 1) :: progressIdxs rest (n + 1)

/-- The progress list is exactly the percentage image of the emission
counter values. -/
theorem processFiles_progress_eq_idxs (total : ℕ) (l : List (Str × Str)) :
    ∀ n : ℕ, (processFiles total n l).progress =
      (progressIdxs l n).map (fun k : ℕ => ((k : ℚ) / (total : ℚ)) * 100) := by
  induction l with
  | nil => intro n; simp [processFiles, progressIdxs]
  | cons hd tl ih =>
    intro n
    obtain ⟨root, file⟩ := hd
    simp only [processFiles, progressIdxs]
    split_ifs with hj hi hv <;> simp [ih (n + 1)]

/-- Final emission counter when the last file of the enumeration is not
junk: the full length. -/
theorem progressIdxs_getLast :
    ∀ (l : List (Str × Str)) (n : ℕ) (rf : Str × Str),
      l.getLast? = some rf → is_junk_file rf.2 = false →
      (progressIdxs l n).getLast? = some (n + l.length) := by
  intro l
  induction l with
  | nil => intro n rf h; simp at h
  | cons hd tl ih =>
    intro n rf hlast hjunk
    obtain ⟨root, file⟩ := hd
    rcases tl with _ | ⟨b, tl'⟩
    · rw [List.getLast?_singleton] at hlast
      obtain rfl : rf = (root, file) := by injection hlast with h; exact h.symm
      simp only [progressIdxs, hjunk]
      simp [progressIdxs]
    · have hlast' : (b :: tl').getLast? = some rf := by
        rwa [List.getLast?_cons_cons] at hlast
      have ihr := ih (n + 1) rf hlast' hjunk
      have hne : progressIdxs (b :: tl') (n + 1) ≠ [] := by
        intro hemp; rw [hemp] at ihr; simp at ihr
      have hstep : progressIdxs ((root, file) :: b :: tl') n =
          if is_junk_file file then progressIdxs (b :: tl') (n + 1)
          else (n + 1) :: progressIdxs (b :: tl') (n + 1) := rfl
      rw [hstep]
      split_ifs with hj
      · rw [ihr]; congr 1; simp; omega
      · obtain ⟨y, ys, hys⟩ := List.exists_cons_of_ne_nil hne
        rw [hys] at ihr ⊢
        rw [List.getLast?_cons_cons, ihr]
        congr 1
        simp
        omega

/-- C2 (amended): within one `scan_media` run the emitted progress sequence
is monotonically non-decreasing and every value lies in the interval from 0
to 100; the value passed at the final callback invocation equals exactly
100 provided the last enumerated file is not a junk file.  (The unamended
final-value clause fails because the junk-file `continue` skips the
progress callback; see the counterexample.) -/
theorem scan_media_progress_monotone_bounded_final (root_path : Str) (d : Dir) :
    List.Chain' (· ≤ ·) (scan_media root_path d).progress ∧
    (∀ x ∈ (scan_media root_path d).progress, 0 ≤ x ∧ x ≤ 100) ∧
    (∀ rf : Str × Str, (walkFiles root_path d).getLast? = some rf →
      is_junk_file rf.2 = false →
      (scan_media root_path d).progress.getLast? = some 100) := by
  refine ⟨processFiles_progress_chain _ _ 0,
    processFiles_progress_bounds _ _ 0 (by simp), ?_⟩
  intro rf hlast hjunk
  have hne : walkFiles root_path d ≠ [] := by
    intro h; rw [h] at hlast; simp at hlast
  have hlen : ((walkFiles root_path d).length : ℚ) ≠ 0 := by
    exact_mod_cast fun h => hne (List.length_eq_zero.mp h)
  have hidx := progressIdxs_getLast (walkFiles root_path d) 0 rf hlast hjunk
  show (processFiles (walkFiles root_path d).length 0 (walkFiles root_path d)).progress.getLast? = some 100
  rw [processFiles_progress_eq_idxs]
  rw [List.getLast?_map _ (progressIdxs (walkFiles root_path d) 0), hidx]
  simp [div_self hlen]

/-- C2 counterexample: a root with files a.jpg then b.tmp has a non-skipped,
non-junk candidate, yet the final (and only) emitted progress value is 50,
not 100, because the trailing junk file advances the counter without a
callback. -/
theorem scan_media_trailing_junk_counterexample :
    walkFiles (chars "r") (Dir.node [chars "a.jpg", chars "b.tmp"] DirEntries.nil) ≠ [] ∧
    is_junk_file (chars "a.jpg") = false ∧
    (scan_media (chars "r") (Dir.node [chars "a.jpg", chars "b.tmp"] DirEntries.nil)).progress
      = [50] ∧
    ((50 : ℚ) ≠ 100) := by
  have hw : walkFiles (chars "r") (Dir.node [chars "a.jpg", chars "b.tmp"] DirEntries.nil)
      = [(chars "r", chars "a.jpg"), (chars "r", chars "b.tmp")] := by decide
  have h1 : is_junk_file (chars "a.jpg") = false := by decide
  have h2 : is_junk_file (chars "b.tmp") = true := by decide
  have h3 : endsWithAny (lowerStr (chars "a.jpg")) image_extensions = true := by decide
  refine ⟨by rw [hw]; simp, h1, ?_, by norm_num⟩
  show (processFiles (walkFiles (chars "r") _).length 0 (walkFiles (chars "r") _)).progress = [50]
  rw [hw]
  simp [processFiles, h1, h2, h3]
  norm_num

/-- Witness for the amended C2 theorem at a one-file tree. -/
theorem scan_media_progress_final_witness :
    (scan_media (chars "r") (Dir.node [chars "a.jpg"] DirEntries.nil)).progress.getLast?
      = some 100 :=
  (scan_media_progress_monotone_bounded_final (chars "r")
    (Dir.node [chars "a.jpg"] DirEntries.nil)).2.2
    (chars "r", chars "a.jpg") (by decide) (by decide)

/-- Membership in a merge result is membership in either input. -/
theorem mem_merge_media_lists (old_list new_list : List Str) (x : Str) :
    x ∈ merge_media_lists old_list new_list ↔ x ∈ old_list ∨ x ∈ new_list := by
  simp [merge_media_lists, List.mem_insertionSort, List.mem_dedup]

/-- Merge results are sorted. -/
theorem merge_media_lists_sorted (old_list new_list : List Str) :
    List.Sorted (· ≤ ·) (merge_media_lists old_list new_list) :=
  List.sorted_insertionSort _ _

/-- Merge results are duplicate-free. -/
theorem merge_media_lists_nodup (old_list new_list : List Str) :
    (merge_media_lists old_list new_list).Nodup :=
  (List.perm_insertionSort _ _).nodup_iff.mpr (List.nodup_dedup _)

/-- Two merges with the same combined membership are the same list: both
are sorted and duplicate-free, so the set determines the sequence. -/
theorem merge_media_lists_ext {a b c d : List Str}
    (h : ∀ x : Str, x ∈ a ∨ x ∈ b ↔ x ∈ c ∨ x ∈ d) :
    merge_media_lists a b = merge_media_lists c d := by
  refine List.eq_of_perm_of_sorted ?_ (merge_media_lists_sorted a b)
    (merge_media_lists_sorted c d)
  refine (List.perm_ext_iff_of_nodup (merge_media_lists_nodup a b)
    (merge_media_lists_nodup c d)).mpr ?_
  intro x
  rw [mem_merge_media_lists, mem_merge_media_lists]
  exact h x

/-- C6: `merge_media_lists` returns the set union of its inputs as a
duplicate-free, lexicographically sorted sequence; merging the result with
the new list again changes nothing (idempotence), and swapping the inputs
gives the same sequence (commutativity, here even as lists). -/
theorem merge_media_lists_union_sorted_idem_comm (old_list new_list : List Str) :
    List.Sorted (· ≤ ·) (merge_media_lists old_list new_list) ∧
    (merge_media_lists old_list new_list).Nodup ∧
    (∀ x : Str, x ∈ merge_media_lists old_list new_list ↔
      x ∈ old_list ∨ x ∈ new_list) ∧
    merge_media_lists (merge_media_lists old_list new_list) new_list
      = merge_media_lists old_list new_list ∧
    merge_media_lists old_list new_list = merge_media_lists new_list old_list := by
  refine ⟨merge_media_lists_sorted old_list new_list,
    merge_media_lists_nodup old_list new_list,
    mem_merge_media_lists old_list new_list, ?_, ?_⟩
  · refine merge_media_lists_ext ?_
    intro x
    rw [mem_merge_media_lists]
    tauto
  · exact merge_media_lists_ext (fun x => or_comm)

/-- Per-target log lines of `build_target_encodings`, with the interpolated
path kept as data. -/
inductive FMLog where
  | noFace (p : Str) (count : ℕ)
  | loaded (p : Str)
  | loadError (p : Str) (e : String)
deriving DecidableEq, Repr

/-- Translation of `load_face_embedding` from recognition.py.  The external
face_recognition capability (load_image_file, face_locations,
face_encodings) is abstracted, per the spec, as one embedding function
returning the face encodings of an image or raising; the source takes the
first encoding and reports the face count, and returns (None, 0) when no
boxes are found. -/
def load_face_embedding {α : Type} (embed : Str → Except String (List α))
    (image_path : Str) : Except String (Option α × ℕ) :=
  match embed image_path with
  | Except.error e => Except.error e
  | Except.ok [] => Except.ok (none, 0)
  | Except.ok (e :: rest) => Except.ok (some e, (e :: rest).length)

/-- Translation of `build_target_encodings` from recognition.py: one pass
over the target paths; a load that raises is logged and skipped, a load
with no face is logged and skipped, a successful load logs and appends the
first-face encoding.  The function itself is total: the batch always
completes. -/
def build_target_encodings {α : Type} (embed : Str → Except String (List α)) :
    List Str → List α × List FMLog
  | [] => ([], [])
  | p :: rest =>
    let r := build_target_encodings embed rest
    match load_face_embedding embed p with
    | Except.error e => (r.1, FMLog.loadError p e :: r.2)
    | Except.ok (none, count) => (r.1, FMLog.noFace p count :: r.2)
    | Except.ok (some enc, _) => (enc :: r.1, FMLog.loaded p :: r.2)

/-- C7: `build_target_encodings` returns exactly one encoding per
successfully processed target, namely the first detected face, in input
order with skipped entries removed; a zero-face target is logged and
skipped, a raising target is logged and skipped, and the whole log has one
line per target.  Totality of the batch is inherent in the return type. -/
theorem build_target_encodings_characterization {α : Type}
    (embed : Str → Except String (List α)) (target_paths : List Str) :
    (build_target_encodings embed target_paths).1 =
      target_paths.filterMap (fun p =>
        match embed p with
        | Except.ok (e :: _) => some e
        | _ => none) ∧
    (build_target_encodings embed target_paths).2 =
      target_paths.map (fun p =>
        match embed p with
        | Except.error e => FMLog.loadError p e
        | Except.ok [] => FMLog.noFace p 0
        | Except.ok (_ :: _) => FMLog.loaded p) := by
  induction target_paths with
  | nil => exact ⟨rfl, rfl⟩
  | cons p rest ih =>
    have hstep : build_target_encodings embed (p :: rest) =
        match load_face_embedding embed p with
        | Except.error e =>
          ((build_target_encodings embed rest).1,
            FMLog.loadError p e :: (build_target_encodings embed rest).2)
        | Except.ok (none, count) =>
          ((build_target_encodings embed rest).1,
            FMLog.noFace p count :: (build_target_encodings embed rest).2)
        | Except.ok (some enc, _) =>
          (enc :: (build_target_encodings embed rest).1,
            FMLog.loaded p :: (build_target_encodings embed rest).2) := rfl
    rw [hstep]
    unfold load_face_embedding
    rcases hemb : embed p with e | l
    · simp [hemb, ih.1, ih.2]
    · rcases l with _ | ⟨x, xs⟩ <;> simp [hemb, ih.1, ih.2]

/-- JSON values, as far as the persisted catalog and history shapes need. -/
inductive Json where
  | str (s : Str)
  | num (q : ℚ)
  | arr (xs : List Json)
  | obj (fields : List (Str × Json))

/-- Contents of a file as the catalog code sees them: either a value that
json.load would produce, or content on which json.load raises. -/
inductive FileData where
  | json (j : Json)
  | corrupt

/-- The filesystem state the photo_scan module touches: which paths are
directories (with their subtree, consumed by os.walk) and which paths are
readable files with contents.  os.path.isdir(p) is (dirs p).isSome and
os.path.exists(p) for data files is (files p).isSome. -/
structure World where
  dirs : Str → Option Dir
  files : Str → Option FileData

/-- Python dict.get(key, default). -/
def dictGet (fields : List (Str × Json)) (key : Str) (default : Json) : Json :=
  match fields.lookup key with
  | some v => v
  | none => default

/-- String elements of a JSON array; catalog files written by the program
always hold arrays of strings, and this extraction is applied to whatever
`data.get` returned.  Non-string elements are dropped rather than carried
as dynamically typed values. -/
def jsonToPaths : Json → List Str
  | Json.arr xs => xs.filterMap (fun j =>
      match j with
      | Json.str s => some s
      | _ => none)
  | _ => []

/-- Translation of the module constant `output_json` from photo_scan.py. -/
def output_json : Str := chars "photo_folder.json"

/-- History file name used by `log_scan` in photo_scan.py. -/
def history_file : Str := chars "scan_history.json"

/-- The images/videos dictionary produced by `load_existing_media`. -/
structure MediaLists where
  images : List Str
  videos : List Str
deriving DecidableEq, Repr

/-- Translation of `load_existing_media` from photo_scan.py: a missing
file yields the empty catalog; a file on which json.load raises is caught
and yields the empty catalog; a parsed non-dict value makes `data.get`
raise AttributeError, which the same except-block catches, again the empty
catalog; a parsed dict is read with `data.get(key, [])`. -/
def load_existing_media (w : World) (json_path : Str) : MediaLists :=
  match w.files json_path with
  | none => ⟨[], []⟩
  | some fd =>
    match fd with
    | FileData.corrupt => ⟨[], []⟩
    | FileData.json j =>
      match j with
      | Json.obj fields =>
        ⟨jsonToPaths (dictGet fields (chars "images") (Json.arr [])),
         jsonToPaths (dictGet fields (chars "videos") (Json.arr []))⟩
      | _ => ⟨[], []⟩

/-- History reading step of `log_scan`: a missing history file means the
empty history; json.JSONDecodeError is caught and means the empty history;
a parsed non-array value later makes `history.append` raise, uncaught. -/
def readHistory (w : World) (history_path : Str) : Except String (List Json) :=
  match w.files history_path with
  | none => Except.ok []
  | some fd =>
    match fd with
    | FileData.corrupt => Except.ok []
    | FileData.json (Json.arr xs) => Except.ok xs
    | FileData.json _ => Except.error "AttributeError: append on non-list history"

/-- Overwriting file write, modelling open(path, "w") followed by
json.dump: the path now holds exactly the dumped value. -/
def writeFile (w : World) (p : Str) (fd : FileData) : World :=
  { w with files := fun q => if q = p then some fd else w.files q }

/-- Translation of `log_scan` from photo_scan.py: build the record, read
the existing history, append, rewrite the whole file.  The strftime
timestamp and the wall-clock elapsed value are parameters; the
two-decimal display rounding of `round(elapsed, 2)` is elided. -/
def log_scan (w : World) (path : Str) (images videos : List Str)
    (elapsed : ℚ) (timestamp : Str) : Except String World :=
  let log_data : Json := Json.obj
    [(chars "scan_path", Json.str path),
     (chars "timestamp", Json.str timestamp),
     (chars "num_images", Json.num images.length),
     (chars "num_videos", Json.num videos.length),
     (chars "time_seconds", Json.num elapsed),
     (chars "image_extensions",
       Json.arr ((List.insertionSort (· ≤ ·) image_extensions.dedup).map Json.str)),
     (chars "video_extensions",
       Json.arr ((List.insertionSort (· ≤ ·) video_extensions.dedup).map Json.str))]
  match readHistory w history_file with
  | Except.error e => Except.error e
  | Except.ok history =>
    Except.ok (writeFile w history_file (FileData.json (Json.arr (history ++ [log_data]))))

/-- Translation of `run_photo_scan` from photo_scan.py: fail fast on an
invalid root, else crawl, report, load the previous catalog, merge, write
the catalog file, and append one history record.  Log lines are kept with
their fixed texts, interpolated values elided. -/
def run_photo_scan (w : World) (scan_path : Str) (elapsed : ℚ)
    (timestamp : Str) : Except String (World × List String) :=
  match w.dirs scan_path with
  | none => Except.ok (w, ["Invalid directory path. Please try again."])
  | some d =>
    let res := scan_media scan_path d
    let existing := load_existing_media w output_json
    let merged_images := merge_media_lists existing.images res.found_images
    let merged_videos := merge_media_lists existing.videos res.found_videos
    let w1 : World := writeFile w output_json (FileData.json (Json.obj
      [(chars "images", Json.arr (merged_images.map Json.str)),
       (chars "videos", Json.arr (merged_videos.map Json.str))]))
    match log_scan w1 scan_path res.found_images res.found_videos elapsed timestamp with
    | Except.error e => Except.error e
    | Except.ok w2 =>
      Except.ok (w2,
        ["Scanning path:"] ++ res.logs ++
        ["Scan Complete:", "Found images", "Found videos", "Time Elapsed",
         "Media paths saved to photo_folder.json"])

/-- Writes to one path leave every other path unchanged. -/
theorem writeFile_files_of_ne (w : World) (p q : Str) (fd : FileData)
    (h : ¬ q = p) : (writeFile w p fd).files q = w.files q := by
  simp [writeFile, h]

/-- C8: catalog load never surfaces an error: a missing catalog file and a
catalog file on which json.load raises both yield the empty catalog, a
missing or unparsable history file reads as the empty history, and under
these conditions the whole scan operation still returns successfully. -/
theorem catalog_and_history_fail_soft (w : World) (p : Str) :
    (w.files p = none → load_existing_media w p = ⟨[], []⟩) ∧
    (w.files p = some FileData.corrupt → load_existing_media w p = ⟨[], []⟩) ∧
    (w.files history_file = none → readHistory w history_file = Except.ok []) ∧
    (w.files history_file = some FileData.corrupt →
      readHistory w history_file = Except.ok []) ∧
    (∀ (d : Dir) (elapsed : ℚ) (timestamp : Str), w.dirs p = some d →
      (w.files output_json = none ∨ w.files output_json = some FileData.corrupt) →
      (w.files history_file = none ∨ w.files history_file = some FileData.corrupt) →
      ∃ w2 logs, run_photo_scan w p elapsed timestamp = Except.ok (w2, logs)) := by
  have hne : ¬ (history_file = output_json) := by decide
  refine ⟨?_, ?_, ?_, ?_, ?_⟩
  · intro h; simp [load_existing_media, h]
  · intro h; simp [load_existing_media, h]
  · intro h; simp [readHistory, h]
  · intro h; simp [readHistory, h]
  · intro d elapsed timestamp hd hcat hhist
    rcases hhist with hh | hh <;>
    · simp only [run_photo_scan, hd, log_scan, readHistory, writeFile_files_of_ne _ _ _ _ hne, hh]
      exact ⟨_, _, rfl⟩

/-- Witness for the C8 theorem: an empty filesystem (no catalog, no
history) and a world whose root directory exists but whose data files are
absent. -/
theorem catalog_and_history_fail_soft_witness :
    load_existing_media ⟨fun _ => none, fun _ => none⟩ output_json = ⟨[], []⟩ ∧
    readHistory ⟨fun _ => none, fun _ => none⟩ history_file = Except.ok [] ∧
    ∃ w2 logs, run_photo_scan
      ⟨fun q => if q = chars "root" then some (Dir.node [] DirEntries.nil) else none,
       fun _ => none⟩
      (chars "root") 0 (chars "t") = Except.ok (w2, logs) := by
  refine ⟨(catalog_and_history_fail_soft ⟨fun _ => none, fun _ => none⟩ output_json).1 rfl,
    (catalog_and_history_fail_soft ⟨fun _ => none, fun _ => none⟩ output_json).2.2.1 rfl,
    (catalog_and_history_fail_soft _ (chars "root")).2.2.2.2
      (Dir.node [] DirEntries.nil) 0 (chars "t") ?_ (Or.inl rfl) (Or.inl rfl)⟩
  show (if chars "root" = chars "root"
    then some (Dir.node [] DirEntries.nil) else none) = some (Dir.node [] DirEntries.nil)
  rw [if_pos rfl]

/-- C9: on a root that is not a directory, `run_photo_scan` reports the
invalid-path message and returns the world unchanged: the catalog file is
not written and no record is appended to the history file. -/
theorem run_photo_scan_invalid_root_preserves_state (w : World) (scan_path : Str)
    (elapsed : ℚ) (timestamp : Str) (h : w.dirs scan_path = none) :
    run_photo_scan w scan_path elapsed timestamp =
      Except.ok (w, ["Invalid directory path. Please try again."]) := by
  simp only [run_photo_scan, h]

/-- Witness for the C9 theorem: a world with no directories at all. -/
theorem run_photo_scan_invalid_root_witness :
    run_photo_scan ⟨fun _ => none, fun _ => none⟩ (chars "x") 0 (chars "t") =
      Except.ok (⟨fun _ => none, fun _ => none⟩,
        ["Invalid directory path. Please try again."]) :=
  run_photo_scan_invalid_root_preserves_state ⟨fun _ => none, fun _ => none⟩
    (chars "x") 0 (chars "t") rfl

/-- The found_images output is exactly the Image-classified enumeration,
joined to full paths, in enumeration order. -/
theorem processFiles_found_images (total : ℕ) (l : List (Str × Str)) :
    ∀ n : ℕ, (processFiles total n l).found_images =
      (l.filter (fun rf => decide (classify_file rf.2 = FileClass.Image))).map
        (fun rf => pathJoin rf.1 rf.2) := by
  induction l with
  | nil => intro n; simp [processFiles]
  | cons hd tl ih =>
    intro n
    obtain ⟨root, file⟩ := hd
    simp only [processFiles]
    split_ifs with hj hi hv <;>
      simp [List.filter_cons, classify_file, ih (n + 1), *]

/-- The found_videos output is exactly the Video-classified enumeration,
joined to full paths, in enumeration order. -/
theorem processFiles_found_videos (total : ℕ) (l : List (Str × Str)) :
    ∀ n : ℕ, (processFiles total n l).found_videos =
      (l.filter (fun rf => decide (classify_file rf.2 = FileClass.Video))).map
        (fun rf => pathJoin rf.1 rf.2) := by
  induction l with
  | nil => intro n; simp [processFiles]
  | cons hd tl ih =>
    intro n
    obtain ⟨root, file⟩ := hd
    simp only [processFiles]
    split_ifs with hj hi hv <;>
      simp [List.filter_cons, classify_file, ih (n + 1), *]

/-- C5: classification is total and deterministic (a function of the file
name alone), a junk suffix always classifies the file as Junk whatever
other suffixes match, and the scan outputs are exactly the Image- and
Video-classified enumerated files, so a junk-suffixed file name is
appended to neither output even when an image or video extension also
matches. -/
theorem classify_junk_overrides_and_scan_outputs :
    (∀ f : Str, is_junk_file f = true → classify_file f = FileClass.Junk) ∧
    (∀ (root_path : Str) (d : Dir),
      (scan_media root_path d).found_images =
        ((walkFiles root_path d).filter
          (fun rf => decide (classify_file rf.2 = FileClass.Image))).map
          (fun rf => pathJoin rf.1 rf.2) ∧
      (scan_media root_path d).found_videos =
        ((walkFiles root_path d).filter
          (fun rf => decide (classify_file rf.2 = FileClass.Video))).map
          (fun rf => pathJoin rf.1 rf.2)) := by
  constructor
  · intro f h; simp [classify_file, h]
  · intro root_path d
    exact ⟨processFiles_found_images _ _ 0, processFiles_found_videos _ _ 0⟩

/-- Witness for the C5 theorem: a junk-suffixed double extension. -/
theorem classify_junk_overrides_witness :
    classify_file (chars "backup.tar") = FileClass.Junk :=
  classify_junk_overrides_and_scan_outputs.1 (chars "backup.tar") (by decide)

/- Every (root, file) pair the pruned walk yields has a directory path the
skip test rejects nothing on: skipped directories contribute no pairs. -/
mutual
theorem walkFiles_skip_false : ∀ (p : Str) (d : Dir) (rf : Str × Str),
    rf ∈ walkFiles p d → should_skip_dir rf.1 = false
  | p, Dir.node files subs, rf, h => by
    have hstep : walkFiles p (Dir.node files subs) =
        if should_skip_dir p then []
        else files.map (fun f => (p, f)) ++ walkFilesEntries p subs := rfl
    rw [hstep] at h
    by_cases hs : should_skip_dir p = true
    · rw [if_pos hs] at h; simp at h
    · rw [if_neg hs] at h
      rcases List.mem_append.mp h with h1 | h2
      · obtain ⟨f, _, rfl⟩ := List.mem_map.mp h1
        exact Bool.not_eq_true _ ▸ (by simpa using hs)
      · exact walkFilesEntries_skip_false p subs rf h2
theorem walkFilesEntries_skip_false : ∀ (p : Str) (es : DirEntries) (rf : Str × Str),
    rf ∈ walkFilesEntries p es → should_skip_dir rf.1 = false
  | p, DirEntries.nil, rf, h => by
    have hstep : walkFilesEntries p DirEntries.nil = ([] : List (Str × Str)) := rfl
    rw [hstep] at h; simp at h
  | p, DirEntries.cons name d rest, rf, h => by
    have hstep : walkFilesEntries p (DirEntries.cons name d rest) =
        walkFiles (pathJoin p name) d ++ walkFilesEntries p rest := rfl
    rw [hstep] at h
    rcases List.mem_append.mp h with h1 | h2
    · exact walkFiles_skip_false (pathJoin p name) d rf h1
    · exact walkFilesEntries_skip_false p rest rf h2
end

/- The directory path of any pair of the full enumeration extends the
enumeration root. -/
mutual
theorem allFilesUnder_extends : ∀ (p : Str) (d : Dir) (rf : Str × Str),
    rf ∈ allFilesUnder p d → ∃ s : Str, rf.1 = p ++ s
  | p, Dir.node files subs, rf, h => by
    have hstep : allFilesUnder p (Dir.node files subs) =
        files.map (fun f => (p, f)) ++ allFilesUnderEntries p subs := rfl
    rw [hstep] at h
    rcases List.mem_append.mp h with h1 | h2
    · obtain ⟨f, _, rfl⟩ := List.mem_map.mp h1
      exact ⟨[], by simp⟩
    · exact allFilesUnderEntries_extends p subs rf h2
theorem allFilesUnderEntries_extends : ∀ (p : Str) (es : DirEntries) (rf : Str × Str),
    rf ∈ allFilesUnderEntries p es → ∃ s : Str, rf.1 = p ++ s
  | p, DirEntries.nil, rf, h => by
    have hstep : allFilesUnderEntries p DirEntries.nil = ([] : List (Str × Str)) := rfl
    rw [hstep] at h; simp at h
  | p, DirEntries.cons name d rest, rf, h => by
    have hstep : allFilesUnderEntries p (DirEntries.cons name d rest) =
        allFilesUnder (pathJoin p name) d ++ allFilesUnderEntries p rest := rfl
    rw [hstep] at h
    rcases List.mem_append.mp h with h1 | h2
    · obtain ⟨s, hs⟩ := allFilesUnder_extends (pathJoin p name) d rf h1
      exact ⟨'/' :: name ++ s, by rw [hs]; simp [pathJoin]⟩
    · exact allFilesUnderEntries_extends p rest rf h2
end

/- The pruned walk enumerates a subset of the full enumeration. -/
mutual
theorem walkFiles_subset_allFilesUnder : ∀ (p : Str) (d : Dir) (rf : Str × Str),
    rf ∈ walkFiles p d → rf ∈ allFilesUnder p d
  | p, Dir.node files subs, rf, h => by
    have hstepw : walkFiles p (Dir.node files subs) =
        if should_skip_dir p then []
        else files.map (fun f => (p, f)) ++ walkFilesEntries p subs := rfl
    have hstepa : allFilesUnder p (Dir.node files subs) =
        files.map (fun f => (p, f)) ++ allFilesUnderEntries p subs := rfl
    rw [hstepw] at h
    rw [hstepa]
    by_cases hs : should_skip_dir p = true
    · rw [if_pos hs] at h; simp at h
    · rw [if_neg hs] at h
      rcases List.mem_append.mp h with h1 | h2
      · exact List.mem_append.mpr (Or.inl h1)
      · exact List.mem_append.mpr
          (Or.inr (walkFilesEntries_subset_allFilesUnderEntries p subs rf h2))
theorem walkFilesEntries_subset_allFilesUnderEntries :
    ∀ (p : Str) (es : DirEntries) (rf : Str × Str),
    rf ∈ walkFilesEntries p es → rf ∈ allFilesUnderEntries p es
  | p, DirEntries.nil, rf, h => h
  | p, DirEntries.cons name d rest, rf, h => by
    have hstepw : walkFilesEntries p (DirEntries.cons name d rest) =
        walkFiles (pathJoin p name) d ++ walkFilesEntries p rest := rfl
    have hstepa : allFilesUnderEntries p (DirEntries.cons name d rest) =
        allFilesUnder (pathJoin p name) d ++ allFilesUnderEntries p rest := rfl
    rw [hstepw] at h
    rw [hstepa]
    rcases List.mem_append.mp h with h1 | h2
    · exact List.mem_append.mpr
        (Or.inl (walkFiles_subset_allFilesUnder (pathJoin p name) d rf h1))
    · exact List.mem_append.mpr
        (Or.inr (walkFilesEntries_subset_allFilesUnderEntries p rest rf h2))
end

/- In a well-formed tree no enumerated file name contains the separator. -/
mutual
theorem allFilesUnder_noslash : ∀ (p : Str) (d : Dir) (rf : Str × Str),
    filesNoSlash d = true → rf ∈ allFilesUnder p d → '/' ∉ rf.2
  | p, Dir.node files subs, rf, hwf, h => by
    have hstepa : allFilesUnder p (Dir.node files subs) =
        files.map (fun f => (p, f)) ++ allFilesUnderEntries p subs := rfl
    have hstepwf : filesNoSlash (Dir.node files subs) =
        (files.all (fun f => decide ('/' ∉ f)) && filesNoSlashEntries subs) := rfl
    rw [hstepa] at h
    rw [hstepwf, Bool.and_eq_true] at hwf
    rcases List.mem_append.mp h with h1 | h2
    · obtain ⟨f, hfmem, rfl⟩ := List.mem_map.mp h1
      have := List.all_eq_true.mp hwf.1 f hfmem
      simpa using this
    · exact allFilesUnderEntries_noslash p subs rf hwf.2 h2
theorem allFilesUnderEntries_noslash : ∀ (p : Str) (es : DirEntries) (rf : Str × Str),
    filesNoSlashEntries es = true → rf ∈ allFilesUnderEntries p es → '/' ∉ rf.2
  | p, DirEntries.nil, rf, _, h => by
    have hstep : allFilesUnderEntries p DirEntries.nil = ([] : List (Str × Str)) := rfl
    rw [hstep] at h; simp at h
  | p, DirEntries.cons name d rest, rf, hwf, h => by
    have hstepa : allFilesUnderEntries p (DirEntries.cons name d rest) =
        allFilesUnder (pathJoin p name) d ++ allFilesUnderEntries p rest := rfl
    have hstepwf : filesNoSlashEntries (DirEntries.cons name d rest) =
        (filesNoSlash d && filesNoSlashEntries rest) := rfl
    rw [hstepa] at h
    rw [hstepwf, Bool.and_eq_true] at hwf
    rcases List.mem_append.mp h with h1 | h2
    · exact allFilesUnder_noslash (pathJoin p name) d rf hwf.1 h1
    · exact allFilesUnderEntries_noslash p rest rf hwf.2 h2
end

/- Well-formedness is inherited by every subtree. -/
mutual
theorem subtreesOf_noslash : ∀ (p : Str) (d : Dir) (dt : Str × Dir),
    filesNoSlash d = true → dt ∈ subtreesOf p d → filesNoSlash dt.2 = true
  | p, Dir.node files subs, dt, hwf, h => by
    have hstep : subtreesOf p (Dir.node files subs) =
        (p, Dir.node files subs) :: subtreesOfEntries p subs := rfl
    rw [hstep] at h
    rcases List.mem_cons.mp h with h1 | h2
    · rw [h1]; exact hwf
    · have hstepwf : filesNoSlash (Dir.node files subs) =
          (files.all (fun f => decide ('/' ∉ f)) && filesNoSlashEntries subs) := rfl
      rw [hstepwf, Bool.and_eq_true] at hwf
      exact subtreesOfEntries_noslash p subs dt hwf.2 h2
theorem subtreesOfEntries_noslash : ∀ (p : Str) (es : DirEntries) (dt : Str × Dir),
    filesNoSlashEntries es = true → dt ∈ subtreesOfEntries p es → filesNoSlash dt.2 = true
  | p, DirEntries.nil, dt, _, h => by
    have hstep : subtreesOfEntries p DirEntries.nil = ([] : List (Str × Dir)) := rfl
    rw [hstep] at h; simp at h
  | p, DirEntries.cons name d rest, dt, hwf, h => by
    have hstepa : subtreesOfEntries p (DirEntries.cons name d rest) =
        subtreesOf (pathJoin p name) d ++ subtreesOfEntries p rest := rfl
    have hstepwf : filesNoSlashEntries (DirEntries.cons name d rest) =
        (filesNoSlash d && filesNoSlashEntries rest) := rfl
    rw [hstepa] at h
    rw [hstepwf, Bool.and_eq_true] at hwf
    rcases List.mem_append.mp h with h1 | h2
    · exact subtreesOf_noslash (pathJoin p name) d dt hwf.1 h1
    · exact subtreesOfEntries_noslash p rest dt hwf.2 h2
end

/-- A full path determines its directory part when file names are free of
the separator. -/
theorem pathJoin_dir_inj {r₁ f₁ r₂ f₂ : Str} (h₁ : '/' ∉ f₁) (h₂ : '/' ∉ f₂)
    (h : pathJoin r₁ f₁ = pathJoin r₂ f₂) : r₁ = r₂ := by
  unfold pathJoin at h
  have hs₁ : ('/' :: f₁) <:+ (r₂ ++ '/' :: f₂) := ⟨r₁, h⟩
  have hs₂ : ('/' :: f₂) <:+ (r₂ ++ '/' :: f₂) := ⟨r₂, rfl⟩
  rcases List.suffix_or_suffix_of_suffix hs₁ hs₂ with hsuf | hsuf
  · obtain ⟨t, ht⟩ := hsuf
    cases t with
    | nil =>
      simp only [List.nil_append, List.cons.injEq] at ht
      rw [ht.2] at h
      exact List.append_cancel_right h
    | cons c t' =>
      exfalso
      apply h₂
      have : f₂ = t' ++ '/' :: f₁ := by
        have := ht
        simp only [List.cons_append, List.cons.injEq] at this
        exact this.2.symm
      rw [this]
      exact List.mem_append_right _ (List.mem_cons_self _ _)
  · obtain ⟨t, ht⟩ := hsuf
    cases t with
    | nil =>
      simp only [List.nil_append, List.cons.injEq] at ht
      rw [← ht.2] at h
      exact List.append_cancel_right h
    | cons c t' =>
      exfalso
      apply h₁
      have : f₁ = t' ++ '/' :: f₂ := by
        have := ht
        simp only [List.cons_append, List.cons.injEq] at this
        exact this.2.symm
      rw [this]
      exact List.mem_append_right _ (List.mem_cons_self _ _)

/-- The skip test is monotone under path extension: a skip substring of a
directory path is still a substring of any descendant path. -/
theorem should_skip_dir_append (dp s : Str)
    (h : should_skip_dir dp = true) : should_skip_dir (dp ++ s) = true := by
  simp only [should_skip_dir, containsSub, List.any_eq_true,
    decide_eq_true_eq] at h ⊢
  obtain ⟨skip, hmem, hinf⟩ := h
  refine ⟨skip, hmem, hinf.trans ?_⟩
  refine ⟨[], List.map Char.toLower s, ?_⟩
  simp [lowerStr]

/-- Any full path whose directory part the skip test accepts, with a
separator-free file name, is outside both scan outputs of a well-formed
tree. -/
theorem skipped_dir_not_in_outputs (root_path : Str) (d : Dir)
    (hwf : filesNoSlash d = true) (r f : Str)
    (hskipr : should_skip_dir r = true) (hnsf : '/' ∉ f) :
    pathJoin r f ∉ (scan_media root_path d).found_images ∧
    pathJoin r f ∉ (scan_media root_path d).found_videos := by
  have himg := processFiles_found_images (walkFiles root_path d).length
    (walkFiles root_path d) 0
  have hvid := processFiles_found_videos (walkFiles root_path d).length
    (walkFiles root_path d) 0
  constructor <;> intro hq
  · rw [show (scan_media root_path d).found_images =
      (processFiles (walkFiles root_path d).length 0 (walkFiles root_path d)).found_images
      from rfl, himg] at hq
    obtain ⟨⟨r', f'⟩, hmem', heq⟩ := List.mem_map.mp hq
    have hwalk : (r', f') ∈ walkFiles root_path d := List.mem_of_mem_filter hmem'
    have hskip' : should_skip_dir r' = false := walkFiles_skip_false _ _ _ hwalk
    have hns' : '/' ∉ f' := allFilesUnder_noslash root_path d (r', f') hwf
      (walkFiles_subset_allFilesUnder _ _ _ hwalk)
    have : r' = r := pathJoin_dir_inj hns' hnsf heq
    rw [this, hskipr] at hskip'
    simp at hskip'
  · rw [show (scan_media root_path d).found_videos =
      (processFiles (walkFiles root_path d).length 0 (walkFiles root_path d)).found_videos
      from rfl, hvid] at hq
    obtain ⟨⟨r', f'⟩, hmem', heq⟩ := List.mem_map.mp hq
    have hwalk : (r', f') ∈ walkFiles root_path d := List.mem_of_mem_filter hmem'
    have hskip' : should_skip_dir r' = false := walkFiles_skip_false _ _ _ hwalk
    have hns' : '/' ∉ f' := allFilesUnder_noslash root_path d (r', f') hwf
      (walkFiles_subset_allFilesUnder _ _ _ hwalk)
    have : r' = r := pathJoin_dir_inj hns' hnsf heq
    rw [this, hskipr] at hskip'
    simp at hskip'

/-- C4: in a well-formed tree, every file located under a directory whose
path matches a skip substring (case-insensitively) is absent from both the
images and the videos output of the crawl: once a directory is skipped,
none of its descendants contribute to either output sequence. -/
theorem skipped_subtree_files_excluded (root_path : Str) (d : Dir)
    (hwf : filesNoSlash d = true) (dp : Str) (t : Dir)
    (hsub : (dp, t) ∈ subtreesOf root_path d)
    (hskip : should_skip_dir dp = true) (r f : Str)
    (hrf : (r, f) ∈ allFilesUnder dp t) :
    pathJoin r f ∉ (scan_media root_path d).found_images ∧
    pathJoin r f ∉ (scan_media root_path d).found_videos := by
  obtain ⟨s, hs⟩ := allFilesUnder_extends dp t (r, f) hrf
  have hwft : filesNoSlash t = true := subtreesOf_noslash root_path d (dp, t) hwf hsub
  have hnsf : '/' ∉ f := allFilesUnder_noslash dp t (r, f) hwft hrf
  have hskipr : should_skip_dir r = true := by
    rw [show r = dp ++ s from hs]
    exact should_skip_dir_append dp s hskip
  exact skipped_dir_not_in_outputs root_path d hwf r f hskipr hnsf

/-- Witness for the C4 theorem: a node_modules subdirectory holding
ignored.jpg under root r contributes to neither output. -/
theorem skipped_subtree_files_excluded_witness :
    pathJoin (pathJoin (chars "r") (chars "node_modules")) (chars "ignored.jpg") ∉
      (scan_media (chars "r")
        (Dir.node [chars "photo.jpg"]
          (DirEntries.cons (chars "node_modules")
            (Dir.node [chars "ignored.jpg"] DirEntries.nil)
            DirEntries.nil))).found_images ∧
    pathJoin (pathJoin (chars "r") (chars "node_modules")) (chars "ignored.jpg") ∉
      (scan_media (chars "r")
        (Dir.node [chars "photo.jpg"]
          (DirEntries.cons (chars "node_modules")
            (Dir.node [chars "ignored.jpg"] DirEntries.nil)
            DirEntries.nil))).found_videos :=
  skipped_subtree_files_excluded (chars "r")
    (Dir.node [chars "photo.jpg"]
      (DirEntries.cons (chars "node_modules")
        (Dir.node [chars "ignored.jpg"] DirEntries.nil)
        DirEntries.nil))
    (by decide)
    (pathJoin (chars "r") (chars "node_modules"))
    (Dir.node [chars "ignored.jpg"] DirEntries.nil)
    (List.Mem.tail _ (List.Mem.head _))
    (by decide)
    (pathJoin (chars "r") (chars "node_modules")) (chars "ignored.jpg")
    (List.Mem.head _)

/- Candidate enumeration of `scan_and_copy_matches` in recognition.py: walk
the whole tree (this walk has no skip pruning) and keep the files passing
the suffix whitelist, joined to full paths. -/
mutual
def gatherImageFiles : Str → Dir → List Str
  | p, Dir.node files subs =>
    (files.filter is_candidate).map (fun f => pathJoin p f) ++
      gatherImageFilesEntries p subs
def gatherImageFilesEntries : Str → DirEntries → List Str
  | _, DirEntries.nil => []
  | p, DirEntries.cons name d rest =>
    gatherImageFiles (pathJoin p name) d ++ gatherImageFilesEntries p rest
end

/- The gathered candidates are exactly the whitelist-passing files of the
full enumeration. -/
mutual
theorem gatherImageFiles_eq : ∀ (p : Str) (d : Dir),
    gatherImageFiles p d =
      ((allFilesUnder p d).filter (fun rf => is_candidate rf.2)).map
        (fun rf => pathJoin rf.1 rf.2)
  | p, Dir.node files subs => by
    have hstepg : gatherImageFiles p (Dir.node files subs) =
        (files.filter is_candidate).map (fun f => pathJoin p f) ++
          gatherImageFilesEntries p subs := rfl
    have hstepa : allFilesUnder p (Dir.node files subs) =
        files.map (fun f => (p, f)) ++ allFilesUnderEntries p subs := rfl
    rw [hstepg, hstepa, List.filter_append, List.map_append,
      gatherImageFilesEntries_eq p subs, List.filter_map, List.map_map]
    rfl
theorem gatherImageFilesEntries_eq : ∀ (p : Str) (es : DirEntries),
    gatherImageFilesEntries p es =
      ((allFilesUnderEntries p es).filter (fun rf => is_candidate rf.2)).map
        (fun rf => pathJoin rf.1 rf.2)
  | p, DirEntries.nil => rfl
  | p, DirEntries.cons name d rest => by
    have hstepg : gatherImageFilesEntries p (DirEntries.cons name d rest) =
        gatherImageFiles (pathJoin p name) d ++ gatherImageFilesEntries p rest := rfl
    have hstepa : allFilesUnderEntries p (DirEntries.cons name d rest) =
        allFilesUnder (pathJoin p name) d ++ allFilesUnderEntries p rest := rfl
    rw [hstepg, hstepa, List.filter_append, List.map_append,
      gatherImageFiles_eq (pathJoin p name) d, gatherImageFilesEntries_eq p rest]
end

/-- C10: the candidate enumeration keeps exactly the files whose lowercase
name ends with .jpg, .jpeg, .png, .bmp, the literal six-character ".webp:"
or .tiff, and a file name ending in ".webp" passes none of these six
suffix tests, so it is never enumerated, matched, or copied. -/
theorem candidate_whitelist_excludes_webp :
    (∀ f : Str, is_candidate f = true ↔
      ∃ e ∈ candidate_suffixes, e <:+ lowerStr f) ∧
    (∀ (p : Str) (d : Dir), gatherImageFiles p d =
      ((allFilesUnder p d).filter (fun rf => is_candidate rf.2)).map
        (fun rf => pathJoin rf.1 rf.2)) ∧
    (∀ f : Str, (chars ".webp") <:+ lowerStr f → is_candidate f = false) := by
  refine ⟨?_, gatherImageFiles_eq, ?_⟩
  · intro f
    simp [is_candidate, endsWithAny, List.any_eq_true, List.isSuffixOf_iff_suffix]
  · intro f h
    by_contra hc
    rw [Bool.not_eq_false, is_candidate, endsWithAny] at hc
    obtain ⟨e, he, hsuf⟩ := List.any_eq_true.mp hc
    have hsuf' : e <:+ lowerStr f := List.isSuffixOf_iff_suffix.mp hsuf
    simp only [candidate_suffixes, List.mem_cons, List.not_mem_nil, or_false] at he
    rcases he with rfl | rfl | rfl | rfl | rfl | rfl <;>
      rcases List.suffix_or_suffix_of_suffix hsuf' h with h1 | h1 <;>
      exact absurd h1 (by decide)

/-- Witness for the C10 theorem: photo.webp is not a candidate. -/
theorem candidate_whitelist_excludes_webp_witness :
    is_candidate (chars "photo.webp") = false :=
  candidate_whitelist_excludes_webp.2.2 (chars "photo.webp") (by decide)

/-- Translation of `scan_and_copy_matches` from recognition.py at function
level.  The enumeration and the empty-case early return follow the source;
past that point the source executes `for idx, img_path in enumerate(img_path)`
(line 54), and `img_path` is an unbound name at that point (the gathered
list is named image_files), so CPython raises NameError while evaluating
the enumerate argument, before any candidate is processed.  The translation
therefore returns that error for every non-empty candidate list; the loop
body itself is modelled separately as `process_candidate`.  On success the
result carries the log lines and the emitted progress values. -/
def scan_and_copy_matches {α : Type} (target_encs : List α)
    (source_folder : Str) (d : Dir) (matched_folder : Str)
    (threshold : ℚ) : Except String (List String × List ℚ) :=
  let image_files := gatherImageFiles source_folder d
  let total_files := image_files.length
  if total_files = 0 then
    Except.ok (["[FaceMatch] No imnages found in source older."], [])
  else
    Except.error "NameError: name img_path is not defined"

/-- C1 (code refutation): for every non-empty candidate enumeration the
scan raises NameError before processing any candidate, so no candidate is
processed, no progress value is emitted, and the completion log line is
never reached, let alone exactly once. -/
theorem scan_and_copy_matches_raises_nameerror {α : Type} (target_encs : List α)
    (source_folder : Str) (d : Dir) (matched_folder : Str) (threshold : ℚ)
    (h : gatherImageFiles source_folder d ≠ []) :
    scan_and_copy_matches target_encs source_folder d matched_folder threshold =
      Except.error "NameError: name img_path is not defined" := by
  have hlen : gatherImageFiles source_folder d ≠ [] → (gatherImageFiles source_folder d).length ≠ 0 :=
    fun hne h0 => hne (List.length_eq_zero.mp h0)
  simp only [scan_and_copy_matches]
  rw [if_neg (hlen h)]

/-- Witness for the C1 theorem: a single candidate file a.jpg. -/
theorem scan_and_copy_matches_raises_nameerror_witness :
    scan_and_copy_matches ([] : List ℚ) (chars "s")
      (Dir.node [chars "a.jpg"] DirEntries.nil) (chars "m") 0 =
      Except.error "NameError: name img_path is not defined" :=
  scan_and_copy_matches_raises_nameerror ([] : List ℚ) (chars "s")
    (Dir.node [chars "a.jpg"] DirEntries.nil) (chars "m") 0 (by decide)

/-- Translation of `compute_distance` and `is_match` from recognition.py,
with the external distance capability as a parameter. -/
def is_match {α : Type} (dist : α → α → ℚ) (encA encB : α) (threshold : ℚ) : Bool :=
  decide (dist encA encB ≤ threshold)

/-- First (embedding, target) pair passing the threshold, in the order of
the two nested loops of the match scanner: outer over the embeddings of
the candidate image, inner over the target encodings.  This expresses the
StopIteration-based break of the source as a first-match search. -/
def firstMatch {α : Type} (dist : α → α → ℚ) (threshold : ℚ)
    (encs target_encs : List α) : Option (α × α) :=
  encs.findSome? (fun e =>
    (target_encs.find? (fun t => is_match dist t e threshold)).map (fun t => (e, t)))

/-- Translation of `os.path.basename`: the part after the last separator. -/
def basename (p : Str) : Str :=
  (p.reverse.takeWhile (fun c => c != '/')).reverse

/-- Translation of `os.path.splitext` on a file name: split at the last
dot, except that leading dots of the name count as part of the root. -/
def splitext (name : Str) : Str × Str :=
  let lead := name.takeWhile (fun c => c == '.')
  let rest := name.drop lead.length
  let extRev := rest.reverse.takeWhile (fun c => c != '.')
  if extRev.length = rest.length then (name, [])
  else (lead ++ rest.take (rest.length - extRev.length - 1), '.' :: extRev.reverse)

/-- The destination name sequence of the collision loop: the plain name
first, then name_1, name_2, and so on. -/
def candName (matched_folder base ext : Str) (k : ℕ) : Str :=
  if k = 0 then pathJoin matched_folder (base ++ ext)
  else pathJoin matched_folder (base ++ chars "_" ++ (Nat.repr k).toList ++ ext)

/-- Translation of the while-loop of `scan_and_copy_matches` that searches
a free destination name: while the current name exists, move to the next
suffixed name.  The loop state is the current name and the counter; the
fuel argument bounds the modelled iterations, and exhausting it means the
source loop has not terminated within that many steps (no copy happens). -/
def find_free_name (existing : List Str) (matched_folder base ext : Str) :
    ℕ → Str → ℕ → Option Str
  | 0, _, _ => none
  | fuel + 1, dst, counter =>
    if existing.contains dst then
      find_free_name existing matched_folder base ext fuel
        (candName matched_folder base ext counter) (counter + 1)
    else some dst

/-- Translation of the per-candidate loop body of `scan_and_copy_matches`
(recognition.py lines 55 to 86), modelled standalone: extract the
embeddings of the candidate (per-candidate errors are caught and logged),
search the first matching (embedding, target) pair, and on a match build a
collision-free destination and copy once; StopIteration ends the nested
loops after the single copy.  The result lists the destinations written
and the log lines. -/
def process_candidate {α : Type} (embed : Str → Except String (List α))
    (dist : α → α → ℚ) (target_encs : List α) (threshold : ℚ)
    (matched_folder : Str) (existing : List Str) (img_path : Str) :
    List Str × List String :=
  match embed img_path with
  | Except.error _ => ([], ["[FaceMatch] Error processing image"])
  | Except.ok encs =>
    match firstMatch dist threshold encs target_encs with
    | none => ([], [])
    | some _ =>
      let base := (splitext (basename img_path)).1
      let ext := (splitext (basename img_path)).2
      match find_free_name existing matched_folder base ext
        (existing.length + 1) (pathJoin matched_folder (base ++ ext)) 1 with
      | some dst => ([dst], ["[FaceMatch] Match -> image"])
      | none => ([], [])

/-- A name the collision loop returns was just checked to be absent. -/
theorem find_free_name_fresh (existing : List Str) (matched_folder base ext : Str) :
    ∀ (fuel counter : ℕ) (dst dst' : Str),
      find_free_name existing matched_folder base ext fuel dst counter = some dst' →
      existing.contains dst' = false := by
  intro fuel
  induction fuel with
  | zero => intro counter dst dst' h; simp [find_free_name] at h
  | succ fuel ih =>
    intro counter dst dst' h
    rw [show find_free_name existing matched_folder base ext (fuel + 1) dst counter =
      if existing.contains dst then
        find_free_name existing matched_folder base ext fuel
          (candName matched_folder base ext counter) (counter + 1)
      else some dst from rfl] at h
    split_ifs at h with hc
    · exact ih (counter + 1) _ dst' h
    · obtain rfl : dst = dst' := by injection h
      simpa using hc

/-- Shape of the collision loop result: starting at candidate index c, the
returned name is candidate k for some k at least c, and every candidate
strictly between c and k was found to exist. -/
theorem find_free_name_shape (existing : List Str) (matched_folder base ext : Str) :
    ∀ (fuel c : ℕ) (dst' : Str),
      find_free_name existing matched_folder base ext fuel
        (candName matched_folder base ext c) (c + 1) = some dst' →
      ∃ k, c ≤ k ∧ dst' = candName matched_folder base ext k ∧
        ∀ j, c ≤ j → j < k →
          existing.contains (candName matched_folder base ext j) = true := by
  intro fuel
  induction fuel with
  | zero => intro c dst' h; simp [find_free_name] at h
  | succ fuel ih =>
    intro c dst' h
    rw [show find_free_name existing matched_folder base ext (fuel + 1)
        (candName matched_folder base ext c) (c + 1) =
      if existing.contains (candName matched_folder base ext c) then
        find_free_name existing matched_folder base ext fuel
          (candName matched_folder base ext (c + 1)) (c + 1 + 1)
      else some (candName matched_folder base ext c) from rfl] at h
    split_ifs at h with hc
    · obtain ⟨k, hk1, hk2, hk3⟩ := ih (c + 1) dst' h
      refine ⟨k, by omega, hk2, ?_⟩
      intro j hj1 hj2
      rcases Nat.eq_or_lt_of_le hj1 with rfl | hlt
      · exact hc
      · exact hk3 j hlt hj2
    · obtain rfl : candName matched_folder base ext c = dst' := by injection h
      exact ⟨c, le_refl c, rfl, fun j hj1 hj2 => absurd (lt_of_le_of_lt hj1 hj2) (lt_irrefl c)⟩

/-- C3: the per-candidate logic copies at most once (the first matching
embedding and target pair wins, further pairs are not evaluated), and any
written destination did not exist beforehand: on a collision the numeric
suffix is incremented past every taken candidate name until a free one is
found. -/
theorem process_candidate_copies_safe {α : Type}
    (embed : Str → Except String (List α)) (dist : α → α → ℚ)
    (target_encs : List α) (threshold : ℚ) (matched_folder : Str)
    (existing : List Str) (img_path : Str) :
    (process_candidate embed dist target_encs threshold matched_folder
      existing img_path).1.length ≤ 1 ∧
    ∀ dst ∈ (process_candidate embed dist target_encs threshold matched_folder
      existing img_path).1,
      dst ∉ existing ∧
      ∃ k, dst = candName matched_folder (splitext (basename img_path)).1
          (splitext (basename img_path)).2 k ∧
        ∀ j, j < k → existing.contains (candName matched_folder
          (splitext (basename img_path)).1 (splitext (basename img_path)).2 j) = true := by
  unfold process_candidate
  rcases hemb : embed img_path with e | encs
  · simp
  · rcases hfm : firstMatch dist threshold encs target_encs with _ | pair
    · simp [hfm]
    · rcases hff : find_free_name existing matched_folder
        (splitext (basename img_path)).1 (splitext (basename img_path)).2
        (existing.length + 1)
        (pathJoin matched_folder
          ((splitext (basename img_path)).1 ++ (splitext (basename img_path)).2)) 1 with _ | dst0
      · simp [hfm, hff]
      · simp only [hfm, hff]
        refine ⟨by simp, ?_⟩
        intro dst hdst
        simp only [List.mem_singleton] at hdst
        subst hdst
        have hfresh := find_free_name_fresh existing matched_folder
          (splitext (basename img_path)).1 (splitext (basename img_path)).2
          (existing.length + 1) 1 _ dst hff
        have hshape := find_free_name_shape existing matched_folder
          (splitext (basename img_path)).1 (splitext (basename img_path)).2
          (existing.length + 1) 0 dst hff
        refine ⟨by simpa using hfresh, ?_⟩
        obtain ⟨k, _, hk2, hk3⟩ := hshape
        exact ⟨k, hk2, fun j hj => hk3 j (Nat.zero_le j) hj⟩

/-- Witness for the C3 theorem: a matching candidate s/a.jpg whose plain
destination m/a.jpg already exists is copied exactly once, to a fresh
suffixed name. -/
theorem process_candidate_copies_safe_witness :
    chars "m/a_1.jpg" ∉ [pathJoin (chars "m") (chars "a.jpg")] ∧
    ∃ k, chars "m/a_1.jpg" = candName (chars "m")
        (splitext (basename (chars "s/a.jpg"))).1
        (splitext (basename (chars "s/a.jpg"))).2 k ∧
      ∀ j, j < k → ([pathJoin (chars "m") (chars "a.jpg")].contains
        (candName (chars "m") (splitext (basename (chars "s/a.jpg"))).1
          (splitext (basename (chars "s/a.jpg"))).2 j)) = true :=
  (process_candidate_copies_safe (fun _ => Except.ok [(0 : ℚ)])
    (fun _ _ => (0 : ℚ)) [(0 : ℚ)] 1 (chars "m")
    [pathJoin (chars "m") (chars "a.jpg")] (chars "s/a.jpg")).2
    (chars "m/a_1.jpg") (by decide)
